import Mathlib

/-!
Shallow embedding of the MealPlanner shopping-list engine
(`src/app/page.tsx`, first revision): the normalizer, the aggregator
`groupShoppingList`, the extras merger `mergeExtrasIntoShoppingList`, the
visibility filter, the random-pick operation, and the debounced sync
controller.

Modelling conventions:
* JS `number` quantities are modelled as `ℚ` (only addition of literals
  occurs, so this is exact).
* JS string helpers (`trim`, `toLowerCase`, `split("\n")`) are modelled by
  structurally recursive functions on the character list, so that every
  definition reduces in the kernel.  `trim` removes the usual ASCII
  whitespace characters.
* The JS `Map` (which preserves insertion order, updates values in place
  and never holds two entries with one key) is modelled as an association
  list `List (String × Entry)` with operations that mirror `get`,
  `set` and the in-place `existing.qty += q` mutation.
* `Array.prototype.sort` with the `localeCompare` comparator is modelled
  as an insertion sort by code-point order on the display name; every
  property verified below is invariant under the sort order, so the exact
  collation is immaterial.
* `Math.random` is modelled by an explicit oracle `c : Nat → Nat`; the JS
  index `Math.floor(Math.random() * (i + 1))` becomes `c i % (i + 1)`,
  which ranges over the same set `{0, …, i}`.
-/

namespace MealPlanner

/-- JS `+` on quantities, written through `mkRat` so that it reduces in
the kernel; `jsAdd_eq_add` below shows it is exactly `ℚ` addition. -/
def jsAdd (a b : ℚ) : ℚ :=
  mkRat (a.num * b.den + b.num * a.den) (a.den * b.den)

theorem jsAdd_eq_add (a b : ℚ) : jsAdd a b = a + b := by
  rw [jsAdd, Rat.add_def']

/-- JS `String.prototype.trim` on the character list: drop whitespace at
both ends. -/
def trimChars (l : List Char) : List Char :=
  ((l.dropWhile Char.isWhitespace).reverse.dropWhile Char.isWhitespace).reverse

/-- JS `s.trim()`. -/
def trimStr (s : String) : String :=
  ⟨trimChars s.data⟩

/-- JS `s.toLowerCase()`. -/
def lowerStr (s : String) : String :=
  ⟨s.data.map Char.toLower⟩

/-- `normalizeName` from `page.tsx`: `s.trim().toLowerCase()`. -/
def normalizeName (s : String) : String :=
  lowerStr (trimStr s)

/-- JS `s.split("\n")` on the character list (never returns `[]`). -/
def splitLines : List Char → List (List Char)
  | [] => [[]]
  | c :: rest =>
    match splitLines rest with
    | [] => [[]]
    | h :: t => if c = '\n' then [] :: h :: t else (c :: h) :: t

/-- `text.split("\n").map(x => x.trim()).filter(Boolean)`, the parsing of
`pantryText` into lines used both for the exclusion set and for the
extra-item rows. -/
def parseLines (s : String) : List String :=
  ((splitLines s.data).map (fun cs => trimStr ⟨cs⟩)).filter (fun x => x ≠ "")

/-- Code-point comparison on character lists, the model of the
`localeCompare`-based comparator (every verified property is invariant
under the sort order). -/
def charListLe : List Char → List Char → Bool
  | [], _ => true
  | _ :: _, [] => false
  | a :: as, b :: bs => if a = b then charListLe as bs else decide (a < b)

/-- `Ingredient` record of `page.tsx`. -/
structure Ingredient where
  name : String
  qty : ℚ
  unit : String
deriving DecidableEq, Repr

/-- `Recipe` record of `page.tsx`. -/
structure Recipe where
  id : String
  name : String
  ingredients : List Ingredient
  notes : Option String := none
deriving DecidableEq, Repr

/-- `PickedMeal` record of `page.tsx`. -/
structure PickedMeal where
  recipeId : String
  name : String
deriving DecidableEq, Repr

/-- A shopping-list row `{ name, unit, qty }`. -/
structure Entry where
  name : String
  unit : String
  qty : ℚ
deriving DecidableEq, Repr

/-- `AppState` record of `page.tsx` (first revision). -/
structure AppState where
  recipes : List Recipe
  pantryText : String
  picked : List PickedMeal
  hiddenShoppingKeys : List String
deriving DecidableEq, Repr

/-- The composite key string a stored entry corresponds to:
`normalizeName(name) + "|||" + unit`. -/
def entryKey (e : Entry) : String :=
  normalizeName e.name ++ "|||" ++ e.unit

/-- The key an ingredient is grouped under in `groupShoppingList`:
`normalizeName(ing.name) + "|||" + ing.unit.trim()`. -/
def ingKey (ing : Ingredient) : String :=
  normalizeName ing.name ++ "|||" ++ trimStr ing.unit

/-! ### The JS `Map` model -/

/-- Insertion-ordered map model. -/
abbrev EMap := List (String × Entry)

/-- JS `map.get(k)` (first binding of the key). -/
def mapGet (m : EMap) (k : String) : Option Entry :=
  (m.find? (fun p => p.1 = k)).map (fun p => p.2)

/-- The JS in-place mutation `existing.qty += q` for the binding of `k`. -/
def mapBump (m : EMap) (k : String) (q : ℚ) : EMap :=
  m.map (fun p => if p.1 = k then (p.1, { p.2 with qty := jsAdd p.2.qty q }) else p)

/-- JS `map.set(k, e)`: replace in place if the key is present, else
append at the end (insertion order). -/
def mapSet (m : EMap) (k : String) (e : Entry) : EMap :=
  if (mapGet m k).isSome then
    m.map (fun p => if p.1 = k then (k, e) else p)
  else m ++ [(k, e)]

/-! ### Aggregator (`groupShoppingList`) -/

/-- The exclusion set `new Set(pantry.map(normalizeName).filter(Boolean))`. -/
def pantrySetOf (pantry : List String) : List String :=
  (pantry.map normalizeName).filter (fun s => s ≠ "")

/-- Body of the inner ingredient loop of `groupShoppingList`. -/
def groupStep (pset : List String) (m : EMap) (ing : Ingredient) : EMap :=
  let nameNorm := normalizeName ing.name
  if nameNorm = "" then m
  else if nameNorm ∈ pset then m
  else
    let unitNorm := trimStr ing.unit
    let key := nameNorm ++ "|||" ++ unitNorm
    match mapGet m key with
    | some _ => mapBump m key ing.qty
    | none => m ++ [(key, ⟨trimStr ing.name, unitNorm, ing.qty⟩)]

/-- `recipes.find(x => x.id === pm.recipeId)`. -/
def findRecipe (recipes : List Recipe) (id : String) : Option Recipe :=
  recipes.find? (fun x => x.id = id)

/-- The map built by the two nested loops of `groupShoppingList`. -/
def groupMap (recipes : List Recipe) (picked : List PickedMeal)
    (pantry : List String) : EMap :=
  let pset := pantrySetOf pantry
  picked.foldl
    (fun m pm =>
      match findRecipe recipes pm.recipeId with
      | none => m
      | some r => r.ingredients.foldl (groupStep pset) m)
    []

/-- `Array.from(map.values()).sort((a, b) => a.name.localeCompare(b.name))`,
modelled as an insertion sort on the display name. -/
def sortEntries (l : List Entry) : List Entry :=
  l.insertionSort (fun a b => charListLe a.name.data b.name.data = true)

/-- `groupShoppingList` from `page.tsx`. -/
def groupShoppingList (recipes : List Recipe) (picked : List PickedMeal)
    (pantry : List String) : List Entry :=
  sortEntries ((groupMap recipes picked pantry).map (fun p => p.2))

/-! ### Extras merger (`mergeExtrasIntoShoppingList`) -/

/-- Body of the base loop: `map.set(normalizeName(it.name)+"|||"+it.unit, {...it})`. -/
def mergeBaseStep (m : EMap) (it : Entry) : EMap :=
  mapSet m (normalizeName it.name ++ "|||" ++ it.unit) it

/-- Body of the extras loop of `mergeExtrasIntoShoppingList`. -/
def mergeExtraStep (m : EMap) (raw : String) : EMap :=
  let name := trimStr raw
  if name = "" then m
  else
    let key := normalizeName name ++ "|||"
    match mapGet m key with
    | some _ => mapBump m key 1
    | none => m ++ [(key, ⟨name, "", 1⟩)]

/-- `mergeExtrasIntoShoppingList` from `page.tsx`. -/
def mergeExtrasIntoShoppingList (base : List Entry) (extras : List String) :
    List Entry :=
  sortEntries
    (((extras.foldl mergeExtraStep (base.foldl mergeBaseStep [])).map
      (fun p => p.2)))

/-! ### Derived lists and document operations -/

/-- The `shoppingList` memo: aggregation over the document's recipes,
picks and pantry lines, followed by the extras merge over the same lines
(`pantryText` stores both the exclusion text and the extra-item rows). -/
def derivedShoppingList (st : AppState) : List Entry :=
  mergeExtrasIntoShoppingList
    (groupShoppingList st.recipes st.picked (parseLines st.pantryText))
    (parseLines st.pantryText)

/-- `shoppingKey` from `page.tsx`. -/
def shoppingKey (name unit : String) : String :=
  normalizeName name ++ "|||" ++ unit

/-- The `visibleShoppingList` memo: drop entries whose key is hidden. -/
def visibleShoppingList (st : AppState) : List Entry :=
  (derivedShoppingList st).filter
    (fun it => shoppingKey it.name it.unit ∉ st.hiddenShoppingKeys)

/-- `hideShoppingItem` from `page.tsx`. -/
def hideShoppingItem (name unit : String) (st : AppState) : AppState :=
  let key := shoppingKey name unit
  if key ∈ st.hiddenShoppingKeys then st
  else { st with hiddenShoppingKeys := st.hiddenShoppingKeys ++ [key] }

/-- `restoreShoppingList` from `page.tsx`. -/
def restoreShoppingList (st : AppState) : AppState :=
  { st with hiddenShoppingKeys := [] }

/-! ### Shuffle and random pick -/

/-- Swap two positions of a list (identity when either is out of range). -/
def swapList (l : List α) (i j : Nat) : List α :=
  match l.get? i, l.get? j with
  | some x, some y => (l.set i y).set j x
  | _, _ => l

/-- The Fisher–Yates loop of `shuffle`: iterate `i` from `n` down to `1`,
swapping `a[i]` with `a[c i % (i+1)]`. -/
def shuffleLoop (c : Nat → Nat) (a : List α) : Nat → List α
  | 0 => a
  | i + 1 => shuffleLoop c (swapList a (i + 1) (c (i + 1) % (i + 2))) i

/-- `shuffle` from `page.tsx`, with the random draws supplied by `c`. -/
def shuffle (c : Nat → Nat) (arr : List α) : List α :=
  shuffleLoop c arr (arr.length - 1)

/-- `randomPick` from `page.tsx` (first revision): clamp the count to
`[1, recipes.length]`, pick a prefix of a shuffle, reset hidden keys. -/
def randomPick (c : Nat → Nat) (n : Nat) (st : AppState) : AppState :=
  if st.recipes.length = 0 then st
  else
    let count := max 1 (min n st.recipes.length)
    let chosen :=
      ((shuffle c st.recipes).take count).map
        (fun r => PickedMeal.mk r.id r.name)
    { st with picked := chosen, hiddenShoppingKeys := [] }

/-! ### Claim-side specification functions -/

/-- The full multiset of ingredients the aggregator's nested loops walk:
for each picked meal, the ingredients of its resolved recipe, and nothing
for a picked meal whose `recipeId` matches no recipe. -/
def pickedIngredients (recipes : List Recipe) (picked : List PickedMeal) :
    List Ingredient :=
  picked.flatMap fun pm =>
    match findRecipe recipes pm.recipeId with
    | none => []
    | some r => r.ingredients

/-- Whether an ingredient survives the blank-name and exclusion-set
filters of the aggregator. -/
def contributesB (pset : List String) (ing : Ingredient) : Bool :=
  decide (normalizeName ing.name ≠ "" ∧ normalizeName ing.name ∉ pset)

/-- Kernel-computable sum of rationals; `sumQ_eq_sum` shows it is the
ordinary `List.sum`. -/
def sumQ (l : List ℚ) : ℚ :=
  l.foldr jsAdd 0

/-- Specification sum: total quantity of the contributing ingredients
whose key string (`normalize(name) + "|||" + trim(unit)`) is `k`. -/
def keyQty (pset : List String) (ings : List Ingredient) (k : String) : ℚ :=
  sumQ ((ings.filter fun ing =>
    contributesB pset ing && decide (ingKey ing = k)).map Ingredient.qty)

/-- Modelled from the spec: the sum C1 describes, matching ingredients by
the pair (normalized name, trimmed unit) rather than by the concatenated
key string the code uses.  Kept separate so the pair reading can be
compared with the code's behaviour. -/
def specPairQty (pset : List String) (ings : List Ingredient)
    (nameN unit : String) : ℚ :=
  sumQ ((ings.filter fun ing =>
    contributesB pset ing &&
      decide (normalizeName ing.name = nameN ∧ trimStr ing.unit = unit)).map
    Ingredient.qty)

/-- Distinctness of the (normalized name, unit) composite keys of two
entries. -/
def pairNe (e1 e2 : Entry) : Prop :=
  ¬(normalizeName e1.name = normalizeName e2.name ∧ e1.unit = e2.unit)

/-! ### Sync-controller model

The client sync logic of `page.tsx` (lines 136–187 and the `login`
handler): `hasLoaded` is the ref guarding the debounced save effect,
`doc` the `state` variable (`none` before a load and after logout), and
`pendingSave` the pending debounce timer together with the document it
would save.  Events: a successful `loadState` (from the mount effect or
from `login`), a failed load, a document mutation (every mutator begins
with `if (!state) return`), the debounce timer firing (which performs the
`saveState` call), and `logout` (which clears the document and, through
the effect cleanup, the pending timer). -/

inductive SyncEvent where
  | loadSuccess (s : AppState)
  | loadFailure
  | mutate (f : AppState → AppState)
  | timerFire
  | logout

/-- Client state of the sync controller. -/
structure ClientState where
  hasLoaded : Bool
  doc : Option AppState
  pendingSave : Option AppState

/-- Initial client state: nothing loaded, blank document, no timer. -/
def initClient : ClientState :=
  ⟨false, none, none⟩

/-- The debounced save effect (lines 172–187): after a state change, if
the document is non-null and the first load has completed, (re)schedule a
save of the current document; otherwise schedule nothing. -/
def scheduleSave (cs : ClientState) : ClientState :=
  match cs.doc with
  | none => cs
  | some s => if cs.hasLoaded then { cs with pendingSave := some s } else cs

/-- One controller transition; the second component lists the persist
attempts performed during the transition. -/
def syncStep (cs : ClientState) : SyncEvent → ClientState × List AppState
  | .loadSuccess s =>
    (scheduleSave { cs with hasLoaded := true, doc := some s }, [])
  | .loadFailure => (cs, [])
  | .mutate f =>
    match cs.doc with
    | none => (cs, [])
    | some s => (scheduleSave { cs with doc := some (f s) }, [])
  | .timerFire =>
    match cs.pendingSave with
    | none => (cs, [])
    | some s => ({ cs with pendingSave := none }, [s])
  | .logout => (⟨false, none, none⟩, [])

/-- Run a sequence of events, collecting every persist attempt. -/
def syncRun (cs : ClientState) : List SyncEvent → ClientState × List AppState
  | [] => (cs, [])
  | e :: es =>
    let r := syncStep cs e
    let rest := syncRun r.1 es
    (rest.1, r.2 ++ rest.2)

/-- Recognizer for the successful-load event. -/
def isLoadSuccess : SyncEvent → Bool
  | .loadSuccess _ => true
  | _ => false

/-! ### Concrete inputs used by counterexamples and witnesses -/

/-- A document with one recipe `Soup` containing `onion 2 pcs`, `Soup`
picked, empty pantry text, nothing hidden. -/
def stSoup : AppState :=
  ⟨[⟨"r1", "Soup", [⟨"onion", 2, "pcs"⟩], none⟩], "", [⟨"r1", "Soup"⟩], []⟩

/-- `stSoup` after the line `onion` is entered into the shared pantry /
extras text. -/
def stSoupExcl : AppState :=
  ⟨[⟨"r1", "Soup", [⟨"onion", 2, "pcs"⟩], none⟩], "onion", [⟨"r1", "Soup"⟩], []⟩

/-- Recipes whose two ingredients have different (name, unit) pairs but
the same concatenated key string `"a|||b|||c"`. -/
def collR : List Recipe :=
  [⟨"r1", "Bake", [⟨"a|||b", 1, "c"⟩, ⟨"a", 1, "b|||c"⟩], none⟩]

/-- The single pick of the `collR` recipe. -/
def collP : List PickedMeal :=
  [⟨"r1", "Bake"⟩]

/-- A one-recipe document with nothing picked (for the `randomPick`
counterexample). -/
def stOne : AppState :=
  ⟨[⟨"r1", "Soup", [], none⟩], "", [], []⟩

/-- A degenerate random oracle. -/
def czero : Nat → Nat := fun _ => 0

/-- A document whose shopping list has two rows, one of which is already
hidden. -/
def stHide : AppState :=
  ⟨[⟨"r1", "Soup", [⟨"onion", 2, "pcs"⟩, ⟨"rice", 100, "g"⟩], none⟩], "",
   [⟨"r1", "Soup"⟩], ["onion|||pcs"]⟩

/-- A recipe holding `Sugar/g` and `sugar/G`: same normalized name,
units differing only by case. -/
def sugarR : List Recipe :=
  [⟨"r1", "Bake", [⟨"Sugar", 1, "g"⟩, ⟨"sugar", 1, "G"⟩], none⟩]

/-- Well-formedness of the association-list map: keys are pairwise
distinct (as in a JS `Map`) and every binding's key is the key string of
its stored entry. -/
def goodMap (m : EMap) : Prop :=
  (m.map Prod.fst).Nodup ∧ ∀ p ∈ m, p.1 = entryKey p.2

/-! ## Basic lemmas -/

theorem sumQ_eq_sum (l : List ℚ) : sumQ l = l.sum := by
  induction l with
  | nil => rfl
  | cons a t ih => simp [sumQ, jsAdd_eq_add, List.sum_cons] at *; rw [ih]

theorem dropWhile_idem (p : α → Bool) (l : List α) :
    (l.dropWhile p).dropWhile p = l.dropWhile p := by
  induction l with
  | nil => rfl
  | cons a t ih =>
    by_cases h : p a = true
    · simpa [List.dropWhile_cons, h] using ih
    · simp [List.dropWhile_cons, h]

theorem dropWhile_take (p : α → Bool) (l : List α) (n : Nat)
    (h : l.dropWhile p = l) : (l.take n).dropWhile p = l.take n := by
  cases l with
  | nil => simp
  | cons a t =>
    cases n with
    | zero => simp
    | succ n =>
      have ha : p a = false := by
        by_cases hp : p a = true
        · exfalso
          rw [List.dropWhile_cons, if_pos hp] at h
          have hlen := congrArg List.length h
          have hle := (List.dropWhile_sublist (l := t) (p := p)).length_le
          rw [List.length_cons] at hlen
          omega
        · simpa using hp
      simp [List.take_succ_cons, List.dropWhile_cons, ha]

theorem exists_dropWhile_decomp (p : α → Bool) (l : List α) :
    ∃ t, l = t ++ l.dropWhile p := by
  induction l with
  | nil => exact ⟨[], rfl⟩
  | cons a t ih =>
    by_cases h : p a = true
    · obtain ⟨u, hu⟩ := ih
      exact ⟨a :: u, by simpa [List.dropWhile_cons, h] using congrArg (a :: ·) hu⟩
    · exact ⟨[], by simp [List.dropWhile_cons, h]⟩

theorem trimChars_idem (l : List Char) : trimChars (trimChars l) = trimChars l := by
  set p := Char.isWhitespace with hp
  set A := l.dropWhile p with hA
  set C := A.reverse.dropWhile p with hC
  have hCidem : C.dropWhile p = C := by rw [hC]; exact dropWhile_idem p A.reverse
  have hAidem : A.dropWhile p = A := by rw [hA]; exact dropWhile_idem p l
  obtain ⟨t, ht⟩ := exists_dropWhile_decomp p A.reverse
  have hCrev : C.reverse = A.take C.reverse.length := by
    have : A = C.reverse ++ t.reverse := by
      have := congrArg List.reverse ht
      simpa [List.reverse_append] using this
    rw [this, List.take_left]
  have hfront : C.reverse.dropWhile p = C.reverse := by
    rw [hCrev]; exact dropWhile_take p A C.reverse.length hAidem
  show ((C.reverse.dropWhile p).reverse.dropWhile p).reverse = C.reverse
  rw [hfront, List.reverse_reverse, hCidem]

theorem trimStr_trimStr (s : String) : trimStr (trimStr s) = trimStr s := by
  unfold trimStr
  exact congrArg String.mk (trimChars_idem s.data)

theorem normalizeName_trimStr (s : String) :
    normalizeName (trimStr s) = normalizeName s := by
  unfold normalizeName
  rw [trimStr_trimStr]

theorem string_append_cancel {a b c : String} (h : a ++ b = a ++ c) : b = c := by
  apply String.ext
  have := congrArg String.data h
  rw [String.data_append, String.data_append] at this
  exact List.append_cancel_left this

/-! ## JS `Map` model lemmas -/

theorem mapGet_cons (p : String × Entry) (m : EMap) (k : String) :
    mapGet (p :: m) k = if p.1 = k then some p.2 else mapGet m k := by
  by_cases h : p.1 = k
  · simp [mapGet, List.find?_cons_of_pos, h]
  · simp [mapGet, List.find?_cons_of_neg, h]

theorem mapGet_eq_none_iff (m : EMap) (k : String) :
    mapGet m k = none ↔ k ∉ m.map Prod.fst := by
  constructor
  · intro h hmem
    rw [List.mem_map] at hmem
    obtain ⟨q, hq, hk⟩ := hmem
    simp only [mapGet, Option.map_eq_none', List.find?_eq_none,
      decide_eq_true_eq] at h
    exact h q hq hk
  · intro h
    simp only [mapGet, Option.map_eq_none', List.find?_eq_none,
      decide_eq_true_eq]
    intro q hq hk
    exact h (List.mem_map.2 ⟨q, hq, hk⟩)

theorem mapGet_of_mem (m : EMap) (k : String) (e : Entry)
    (hnd : (m.map Prod.fst).Nodup) (h : (k, e) ∈ m) :
    mapGet m k = some e := by
  induction m with
  | nil => cases h
  | cons q m ih =>
    rcases List.mem_cons.1 h with rfl | hm
    · simp [mapGet_cons]
    · have hq : q.1 ≠ k := by
        intro hk
        have : k ∈ m.map Prod.fst := List.mem_map.2 ⟨(k, e), hm, rfl⟩
        simp only [List.map_cons, List.nodup_cons] at hnd
        exact hnd.1 (hk ▸ this)
      rw [mapGet_cons, if_neg hq]
      exact ih (by simpa using (List.nodup_cons.1 (by simpa using hnd)).2) hm

theorem mapGet_bump (m : EMap) (k : String) (q : ℚ) (k' : String) :
    mapGet (mapBump m k q) k' =
      if k' = k then
        (mapGet m k).map (fun e => { e with qty := jsAdd e.qty q })
      else mapGet m k' := by
  induction m with
  | nil => simp [mapBump, mapGet]
  | cons p m ih =>
    obtain ⟨pk, pe⟩ := p
    simp only [mapBump] at ih ⊢
    rw [List.map_cons]
    by_cases h1 : pk = k
    · subst h1
      by_cases h2 : pk = k'
      · subst h2
        simp [mapGet_cons]
      · have h2' : ¬(k' = pk) := fun hc => h2 hc.symm
        simp [mapGet_cons, h2, h2', ih]
    · by_cases h2 : pk = k'
      · subst h2
        simp [mapGet_cons, h1]
      · have h2' : ¬(k' = pk) := fun hc => h2 hc.symm
        simp [mapGet_cons, h1, h2, h2', ih]

theorem mapGet_setmap (m : EMap) (k : String) (e : Entry) (k' : String) :
    mapGet (m.map fun p => if p.1 = k then (k, e) else p) k' =
      if k' = k then (mapGet m k).map (fun _ => e) else mapGet m k' := by
  induction m with
  | nil => simp [mapGet]
  | cons p m ih =>
    obtain ⟨pk, pe⟩ := p
    rw [List.map_cons]
    by_cases h1 : pk = k
    · subst h1
      by_cases h2 : pk = k'
      · subst h2
        simp [mapGet_cons]
      · have h2' : ¬(k' = pk) := fun hc => h2 hc.symm
        simp [mapGet_cons, h2, h2', ih]
    · by_cases h2 : pk = k'
      · subst h2
        simp [mapGet_cons, h1]
      · have h2' : ¬(k' = pk) := fun hc => h2 hc.symm
        simp [mapGet_cons, h1, h2, h2', ih]

theorem mapGet_append_of_isSome (m l : EMap) (k : String) (x : Entry)
    (h : mapGet m k = some x) : mapGet (m ++ l) k = some x := by
  simp only [mapGet, Option.map_eq_some'] at h
  obtain ⟨p, hp, rfl⟩ := h
  simp [mapGet, List.find?_append, hp]

theorem mapGet_append_one_of_none (m : EMap) (k k' : String) (e : Entry)
    (h : mapGet m k' = none) :
    mapGet (m ++ [(k, e)]) k' = if k' = k then some e else none := by
  simp only [mapGet, Option.map_eq_none'] at h
  by_cases hk : k' = k
  · subst hk
    simp [mapGet, List.find?_append, h]
  · simp only [mapGet, List.find?_append, h, Option.none_or]
    rw [List.find?_cons_of_neg _ (by simpa using fun hc : k = k' => hk hc.symm),
      List.find?_nil, if_neg hk]
    rfl

theorem mapGet_set (m : EMap) (k : String) (e : Entry) (k' : String) :
    mapGet (mapSet m k e) k' = if k' = k then some e else mapGet m k' := by
  unfold mapSet
  by_cases hs : (mapGet m k).isSome
  · rw [if_pos hs, mapGet_setmap]
    by_cases h2 : k' = k
    · obtain ⟨x, hx⟩ := Option.isSome_iff_exists.1 hs
      rw [if_pos h2, if_pos h2, hx]
      rfl
    · rw [if_neg h2, if_neg h2]
  · rw [if_neg hs]
    have hnone : mapGet m k = none := Option.not_isSome_iff_eq_none.1 hs
    by_cases h2 : k' = k
    · subst h2
      rw [mapGet_append_one_of_none _ _ _ _ hnone, if_pos rfl, if_pos rfl]
    · rw [if_neg h2]
      cases hmk : mapGet m k' with
      | none => rw [mapGet_append_one_of_none _ _ _ _ hmk, if_neg h2]
      | some x => exact mapGet_append_of_isSome _ _ _ _ hmk

/-! ## The `goodMap` invariant -/

theorem mapBump_keys (m : EMap) (k : String) (q : ℚ) :
    (mapBump m k q).map Prod.fst = m.map Prod.fst := by
  unfold mapBump
  rw [List.map_map]
  apply List.map_congr_left
  intro p _
  by_cases hk : p.1 = k <;> simp [hk]

theorem goodMap_nil : goodMap [] :=
  ⟨List.nodup_nil, by simp⟩

theorem goodMap_mapBump (m : EMap) (k : String) (q : ℚ) (h : goodMap m) :
    goodMap (mapBump m k q) := by
  refine ⟨by rw [mapBump_keys]; exact h.1, ?_⟩
  intro p hp
  unfold mapBump at hp
  rw [List.mem_map] at hp
  obtain ⟨q', hq, rfl⟩ := hp
  by_cases hk : q'.1 = k
  · rw [if_pos hk]
    have := h.2 q' hq
    simpa [entryKey] using this
  · rw [if_neg hk]
    exact h.2 q' hq

theorem goodMap_append_one (m : EMap) (k : String) (e : Entry)
    (h : goodMap m) (hget : mapGet m k = none) (hke : k = entryKey e) :
    goodMap (m ++ [(k, e)]) := by
  constructor
  · rw [List.map_append, List.map_cons, List.map_nil, List.nodup_append]
    refine ⟨h.1, List.nodup_singleton _, ?_⟩
    intro a ha hb
    simp only [List.mem_singleton] at hb
    subst hb
    exact (mapGet_eq_none_iff _ _).1 hget ha
  · intro p hp
    rcases List.mem_append.1 hp with hp | hp
    · exact h.2 p hp
    · simp only [List.mem_singleton] at hp
      subst hp
      exact hke

theorem goodMap_groupStep (pset : List String) (m : EMap) (ing : Ingredient)
    (h : goodMap m) : goodMap (groupStep pset m ing) := by
  unfold groupStep
  by_cases h1 : normalizeName ing.name = ""
  · simpa [h1] using h
  · rw [if_neg h1]
    by_cases h2 : normalizeName ing.name ∈ pset
    · simpa [h2] using h
    · rw [if_neg h2]
      simp only
      cases hg : mapGet m (normalizeName ing.name ++ "|||" ++ trimStr ing.unit) with
      | some e0 => exact goodMap_mapBump m _ ing.qty h
      | none =>
        refine goodMap_append_one m _ _ h hg ?_
        show _ = entryKey ⟨trimStr ing.name, trimStr ing.unit, ing.qty⟩
        unfold entryKey
        simp only
        rw [normalizeName_trimStr]

theorem goodMap_mapSet (m : EMap) (k : String) (e : Entry)
    (h : goodMap m) (hke : k = entryKey e) : goodMap (mapSet m k e) := by
  unfold mapSet
  by_cases hs : (mapGet m k).isSome
  · rw [if_pos hs]
    constructor
    · have : ((m.map fun p => if p.1 = k then (k, e) else p).map Prod.fst) =
          m.map Prod.fst := by
        rw [List.map_map]
        apply List.map_congr_left
        intro p _
        by_cases hk : p.1 = k <;> simp [hk]
      rw [this]
      exact h.1
    · intro p hp
      rw [List.mem_map] at hp
      obtain ⟨q', hq, rfl⟩ := hp
      by_cases hk : q'.1 = k
      · rw [if_pos hk]
        exact hke
      · rw [if_neg hk]
        exact h.2 q' hq
  · rw [if_neg hs]
    exact goodMap_append_one m k e h (Option.not_isSome_iff_eq_none.1 hs) hke

theorem goodMap_mergeBaseStep (m : EMap) (it : Entry) (h : goodMap m) :
    goodMap (mergeBaseStep m it) :=
  goodMap_mapSet m _ it h rfl

theorem goodMap_mergeExtraStep (m : EMap) (raw : String) (h : goodMap m) :
    goodMap (mergeExtraStep m raw) := by
  unfold mergeExtraStep
  by_cases h1 : trimStr raw = ""
  · simpa [h1] using h
  · rw [if_neg h1]
    simp only
    cases hg : mapGet m (normalizeName (trimStr raw) ++ "|||") with
    | some e0 => exact goodMap_mapBump m _ 1 h
    | none =>
      refine goodMap_append_one m _ _ h hg ?_
      show _ = entryKey ⟨trimStr raw, "", 1⟩
      unfold entryKey
      simp only
      rw [String.append_empty]

theorem goodMap_foldl_groupStep (pset : List String) (l : List Ingredient)
    (m : EMap) (h : goodMap m) : goodMap (l.foldl (groupStep pset) m) := by
  induction l generalizing m with
  | nil => exact h
  | cons ing l ih => exact ih _ (goodMap_groupStep pset m ing h)

theorem goodMap_foldl_mergeBaseStep (base : List Entry) (m : EMap)
    (h : goodMap m) : goodMap (base.foldl mergeBaseStep m) := by
  induction base generalizing m with
  | nil => exact h
  | cons it base ih => exact ih _ (goodMap_mergeBaseStep m it h)

theorem goodMap_foldl_mergeExtraStep (extras : List String) (m : EMap)
    (h : goodMap m) : goodMap (extras.foldl mergeExtraStep m) := by
  induction extras generalizing m with
  | nil => exact h
  | cons raw extras ih => exact ih _ (goodMap_mergeExtraStep m raw h)

theorem groupFold_eq_flat (R : List Recipe) (pset : List String)
    (P : List PickedMeal) (m : EMap) :
    P.foldl
      (fun m pm =>
        match findRecipe R pm.recipeId with
        | none => m
        | some r => r.ingredients.foldl (groupStep pset) m) m =
    (pickedIngredients R P).foldl (groupStep pset) m := by
  induction P generalizing m with
  | nil => rfl
  | cons pm P ih =>
    rw [List.foldl_cons]
    have hflat : pickedIngredients R (pm :: P) =
        (match findRecipe R pm.recipeId with
         | none => []
         | some r => r.ingredients) ++ pickedIngredients R P := by
      simp [pickedIngredients, List.flatMap_cons]
    rw [hflat, List.foldl_append]
    cases hf : findRecipe R pm.recipeId with
    | none => simp only [hf, List.foldl_nil]; exact ih m
    | some r => simp only [hf]; exact ih _

theorem groupMap_eq_flat (R : List Recipe) (P : List PickedMeal)
    (E : List String) :
    groupMap R P E = (pickedIngredients R P).foldl (groupStep (pantrySetOf E)) [] :=
  groupFold_eq_flat R (pantrySetOf E) P []

theorem goodMap_groupMap (R : List Recipe) (P : List PickedMeal)
    (E : List String) : goodMap (groupMap R P E) := by
  rw [groupMap_eq_flat]
  exact goodMap_foldl_groupStep _ _ [] goodMap_nil

theorem goodMap_mergeMap (base : List Entry) (extras : List String) :
    goodMap (extras.foldl mergeExtraStep (base.foldl mergeBaseStep [])) :=
  goodMap_foldl_mergeExtraStep extras _
    (goodMap_foldl_mergeBaseStep base [] goodMap_nil)

/-! ## Quantity accumulation in the aggregator -/

theorem keyQty_nil (pset : List String) (k : String) : keyQty pset [] k = 0 :=
  rfl

theorem keyQty_cons (pset : List String) (ing : Ingredient)
    (l : List Ingredient) (k : String) :
    keyQty pset (ing :: l) k =
      (if contributesB pset ing && decide (ingKey ing = k) then ing.qty else 0) +
        keyQty pset l k := by
  unfold keyQty
  rw [sumQ_eq_sum, sumQ_eq_sum, List.filter_cons]
  by_cases h : (contributesB pset ing && decide (ingKey ing = k)) = true
  · rw [if_pos h, if_pos h, List.map_cons, List.sum_cons]
  · rw [if_neg h]
    rw [Bool.not_eq_true] at h
    rw [h]
    simp

theorem foldl_groupStep_qty (pset : List String) (l : List Ingredient)
    (m : EMap) (k : String) (e : Entry)
    (h : mapGet (l.foldl (groupStep pset) m) k = some e) :
    e.qty =
      (match mapGet m k with | some e0 => e0.qty | none => 0) +
        keyQty pset l k := by
  induction l generalizing m with
  | nil =>
    rw [List.foldl_nil] at h
    rw [h, keyQty_nil, add_zero]
  | cons ing l ih =>
    rw [List.foldl_cons] at h
    rw [keyQty_cons]
    by_cases h1 : normalizeName ing.name = ""
    · have hc : contributesB pset ing = false := by simp [contributesB, h1]
      rw [hc, Bool.false_and, if_neg (by simp), zero_add]
      unfold groupStep at h
      rw [if_pos h1] at h
      exact ih m h
    · by_cases h2 : normalizeName ing.name ∈ pset
      · have hc : contributesB pset ing = false := by simp [contributesB, h2]
        rw [hc, Bool.false_and, if_neg (by simp), zero_add]
        unfold groupStep at h
        rw [if_neg h1, if_pos h2] at h
        exact ih m h
      · have hc : contributesB pset ing = true := by simp [contributesB, h1, h2]
        rw [hc, Bool.true_and]
        unfold groupStep at h
        rw [if_neg h1, if_neg h2] at h
        simp only at h
        have hkey :
            (normalizeName ing.name ++ "|||" ++ trimStr ing.unit) = ingKey ing :=
          rfl
        cases hget : mapGet m (normalizeName ing.name ++ "|||" ++ trimStr ing.unit) with
        | some e0 =>
          rw [hget] at h
          have hih := ih _ h
          rw [mapGet_bump, hkey] at hih
          by_cases hk : ingKey ing = k
          · rw [if_pos hk.symm] at hih
            have hget' : mapGet m (ingKey ing) = some e0 := by
              rw [← hkey]; exact hget
            rw [hget'] at hih
            simp only [Option.map_some'] at hih
            have hgetk : mapGet m k = some e0 := by rw [← hk]; exact hget'
            rw [if_pos (by simp [hk]), hgetk]
            simp only
            rw [hih, jsAdd_eq_add, add_assoc]
          · rw [if_neg (fun hc => hk hc.symm)] at hih
            rw [if_neg (by simp [hk]), zero_add]
            exact hih
        | none =>
          rw [hget] at h
          have hih := ih _ h
          have hgetn : mapGet m (ingKey ing) = none := by
            rw [← hkey]; exact hget
          by_cases hk : ingKey ing = k
          · have hgetk : mapGet m k = none := by rw [← hk]; exact hgetn
            rw [mapGet_append_one_of_none _ _ _ _ hgetk,
              if_pos (by rw [hkey, hk])] at hih
            simp only at hih
            rw [if_pos (by simp [hk]), hgetk]
            simp only
            rw [zero_add]
            exact hih
          · rw [if_neg (by simp [hk]), zero_add]
            have hne : ¬(k = normalizeName ing.name ++ "|||" ++ trimStr ing.unit) := by
              rw [hkey]
              exact fun hc => hk hc.symm
            cases hmk : mapGet m k with
            | some x =>
              rw [mapGet_append_of_isSome _ _ _ _ hmk] at hih
              exact hih
            | none =>
              rw [mapGet_append_one_of_none _ _ _ _ hmk, if_neg hne] at hih
              exact hih

/-- C1 helper: each entry of the aggregated output carries exactly the
summed quantity of the contributing ingredients grouped under its key
string. -/
theorem groupMap_mem_qty (R : List Recipe) (P : List PickedMeal)
    (E : List String) (p : String × Entry) (hp : p ∈ groupMap R P E) :
    p.2.qty = keyQty (pantrySetOf E) (pickedIngredients R P) (entryKey p.2) := by
  have hgood := goodMap_groupMap R P E
  have hk : p.1 = entryKey p.2 := hgood.2 p hp
  have hget : mapGet (groupMap R P E) p.1 = some p.2 := by
    obtain ⟨k, e⟩ := p
    exact mapGet_of_mem _ _ _ hgood.1 hp
  rw [groupMap_eq_flat] at hget
  have := foldl_groupStep_qty (pantrySetOf E) (pickedIngredients R P) [] _ _
    (by rw [← hk] at *; exact hget)
  rw [hk] at this
  simpa [mapGet] using this

/-! ## Output membership -/

theorem sortEntries_perm (l : List Entry) : (sortEntries l).Perm l :=
  List.perm_insertionSort _ l

theorem pairNe_symm {e1 e2 : Entry} (h : pairNe e1 e2) : pairNe e2 e1 :=
  fun hc => h ⟨hc.1.symm, hc.2.symm⟩

theorem entryKey_eq_of_pair_eq {e1 e2 : Entry}
    (hn : normalizeName e1.name = normalizeName e2.name)
    (hu : e1.unit = e2.unit) : entryKey e1 = entryKey e2 := by
  unfold entryKey
  rw [hn, hu]

theorem goodMap_values_pairwise (m : EMap) (h : goodMap m) :
    (m.map (fun p => p.2)).Pairwise pairNe := by
  rw [List.pairwise_map]
  have hnd : (m.map Prod.fst).Pairwise (· ≠ ·) := h.1
  rw [List.pairwise_map] at hnd
  refine hnd.imp_of_mem ?_
  intro a b ha hb hne hc
  apply hne
  rw [h.2 a ha, h.2 b hb]
  exact entryKey_eq_of_pair_eq hc.1 hc.2

/-- **C1** (amended).  For every recipe list, pick list and exclusion
list, each entry of `groupShoppingList` has quantity equal to the sum of
the `qty` fields of the ingredients of the picked, still-existing recipes
whose key string `normalize(name) ++ "|||" ++ trim(unit)` equals the
entry's key string and whose normalized name is neither blank nor in the
normalized exclusion set; picked meals whose `recipeId` matches no recipe
contribute nothing.  (The code groups by this concatenated string, not by
the (name, unit) pair: the two disagree when a name or unit contains the
separator `"|||"`, see the counterexample.) -/
theorem c1_entry_qty (R : List Recipe) (P : List PickedMeal) (E : List String)
    (e : Entry) (he : e ∈ groupShoppingList R P E) :
    e.qty = keyQty (pantrySetOf E) (pickedIngredients R P) (entryKey e) := by
  have he' : e ∈ (groupMap R P E).map (fun p => p.2) :=
    ((sortEntries_perm _).mem_iff).1 he
  obtain ⟨p, hp, hpe⟩ := List.mem_map.1 he'
  rw [← hpe]
  exact groupMap_mem_qty R P E p hp

/-- Witness for C1 at the `Soup` document. -/
theorem c1_entry_qty_witness :
    (⟨"onion", "pcs", (2 : ℚ)⟩ : Entry) ∈
      groupShoppingList stSoup.recipes stSoup.picked [] ∧
    (2 : ℚ) = keyQty (pantrySetOf []) (pickedIngredients stSoup.recipes stSoup.picked)
      (entryKey ⟨"onion", "pcs", (2 : ℚ)⟩) := by
  constructor
  · decide
  · exact c1_entry_qty stSoup.recipes stSoup.picked [] ⟨"onion", "pcs", (2 : ℚ)⟩
      (by decide)

/-- **C1** counterexample: with the ingredients `"a|||b"/1/"c"` and
`"a"/1/"b|||c"` (distinct (normalized name, trimmed unit) pairs whose
concatenated key strings coincide) the single output entry has quantity
2, yet the sum over ingredients whose *pair* equals the entry's pair is
1 — so the claim read over pairs is false. -/
theorem c1_pair_counterexample :
    (⟨"a|||b", "c", (2 : ℚ)⟩ : Entry) ∈ groupShoppingList collR collP [] ∧
    specPairQty (pantrySetOf []) (pickedIngredients collR collP)
      (normalizeName "a|||b") "c" = 1 ∧ (2 : ℚ) ≠ 1 :=
  ⟨by decide, by decide, by decide⟩

/-- **C9**: neither `groupShoppingList` nor `mergeExtrasIntoShoppingList`
ever returns two entries with the same composite key
(normalized name, unit). -/
theorem c9_no_duplicate_keys :
    (∀ (R : List Recipe) (P : List PickedMeal) (E : List String),
      (groupShoppingList R P E).Pairwise pairNe) ∧
    (∀ (base : List Entry) (extras : List String),
      (mergeExtrasIntoShoppingList base extras).Pairwise pairNe) := by
  constructor
  · intro R P E
    have h := goodMap_values_pairwise _ (goodMap_groupMap R P E)
    exact ((sortEntries_perm _).pairwise_iff pairNe_symm).2 h
  · intro base extras
    have h := goodMap_values_pairwise _ (goodMap_mergeMap base extras)
    exact ((sortEntries_perm _).pairwise_iff pairNe_symm).2 h

/-! ## Completeness of the aggregator (for C6) -/

theorem mapGet_groupStep_isSome_mono (pset : List String) (m : EMap)
    (ing : Ingredient) (k : String) (h : (mapGet m k).isSome) :
    (mapGet (groupStep pset m ing) k).isSome := by
  obtain ⟨x, hx⟩ := Option.isSome_iff_exists.1 h
  unfold groupStep
  by_cases h1 : normalizeName ing.name = ""
  · simp [h1, hx]
  · rw [if_neg h1]
    by_cases h2 : normalizeName ing.name ∈ pset
    · simp [h2, hx]
    · rw [if_neg h2]
      simp only
      cases hget : mapGet m (normalizeName ing.name ++ "|||" ++ trimStr ing.unit) with
      | some e0 =>
        rw [mapGet_bump]
        by_cases hk : k = normalizeName ing.name ++ "|||" ++ trimStr ing.unit
        · rw [if_pos hk, ← hk, hx]
          simp
        · rw [if_neg hk, hx]
          simp
      | none =>
        rw [mapGet_append_of_isSome _ _ _ _ hx]
        simp

theorem mapGet_groupStep_self (pset : List String) (m : EMap) (ing : Ingredient)
    (h1 : ¬normalizeName ing.name = "") (h2 : normalizeName ing.name ∉ pset) :
    (mapGet (groupStep pset m ing) (ingKey ing)).isSome := by
  show (mapGet (groupStep pset m ing)
    (normalizeName ing.name ++ "|||" ++ trimStr ing.unit)).isSome
  unfold groupStep
  rw [if_neg h1, if_neg h2]
  simp only
  cases hget : mapGet m (normalizeName ing.name ++ "|||" ++ trimStr ing.unit) with
  | some e0 =>
    rw [mapGet_bump, if_pos rfl, hget]
    simp
  | none =>
    rw [mapGet_append_one_of_none _ _ _ _ hget, if_pos rfl]
    simp

theorem foldl_groupStep_isSome_mono (pset : List String) (l : List Ingredient)
    (m : EMap) (k : String) (h : (mapGet m k).isSome) :
    (mapGet (l.foldl (groupStep pset) m) k).isSome := by
  induction l generalizing m with
  | nil => exact h
  | cons ing l ih => exact ih _ (mapGet_groupStep_isSome_mono pset m ing k h)

theorem mem_foldl_groupStep_isSome (pset : List String) (l : List Ingredient)
    (m : EMap) (ing : Ingredient) (hing : ing ∈ l)
    (h1 : ¬normalizeName ing.name = "") (h2 : normalizeName ing.name ∉ pset) :
    (mapGet (l.foldl (groupStep pset) m) (ingKey ing)).isSome := by
  induction l generalizing m with
  | nil => cases hing
  | cons a l ih =>
    rw [List.foldl_cons]
    rcases List.mem_cons.1 hing with rfl | hmem
    · exact foldl_groupStep_isSome_mono pset l _ _
        (mapGet_groupStep_self pset m ing h1 h2)
    · exact ih _ hmem

theorem mem_pickedIngredients (R : List Recipe) (P : List PickedMeal)
    (pm : PickedMeal) (r : Recipe) (ing : Ingredient) (hpm : pm ∈ P)
    (hr : findRecipe R pm.recipeId = some r) (hing : ing ∈ r.ingredients) :
    ing ∈ pickedIngredients R P := by
  unfold pickedIngredients
  rw [List.mem_flatMap]
  exact ⟨pm, hpm, by rw [hr]; exact hing⟩

theorem groupShoppingList_key_complete (R : List Recipe) (P : List PickedMeal)
    (E : List String) (ing : Ingredient)
    (hing : ing ∈ pickedIngredients R P)
    (h1 : ¬normalizeName ing.name = "")
    (h2 : normalizeName ing.name ∉ pantrySetOf E) :
    ∃ e ∈ groupShoppingList R P E, entryKey e = ingKey ing := by
  have hsome : (mapGet (groupMap R P E) (ingKey ing)).isSome := by
    rw [groupMap_eq_flat]
    exact mem_foldl_groupStep_isSome _ _ [] ing hing h1 h2
  obtain ⟨x, hx⟩ := Option.isSome_iff_exists.1 hsome
  simp only [mapGet, Option.map_eq_some'] at hx
  obtain ⟨q, hq, hqx⟩ := hx
  have hmem : q ∈ groupMap R P E := List.mem_of_find?_eq_some hq
  have hqk : q.1 = ingKey ing := by
    have := List.find?_some hq
    simpa using this
  have hek : q.1 = entryKey q.2 := (goodMap_groupMap R P E).2 q hmem
  refine ⟨q.2, ?_, by rw [← hek, hqk]⟩
  exact ((sortEntries_perm _).mem_iff).2 (List.mem_map_of_mem _ hmem)

/-- **C6**: two ingredients of picked, resolved recipes whose names
normalize to the same non-blank, non-excluded string but whose trimmed
units differ are never merged: the output contains two distinct entries,
one keyed by each ingredient's key. -/
theorem c6_units_never_merge (R : List Recipe) (P : List PickedMeal)
    (E : List String) (pm1 pm2 : PickedMeal) (r1 r2 : Recipe)
    (ing1 ing2 : Ingredient)
    (hpm1 : pm1 ∈ P) (hr1 : findRecipe R pm1.recipeId = some r1)
    (hi1 : ing1 ∈ r1.ingredients)
    (hpm2 : pm2 ∈ P) (hr2 : findRecipe R pm2.recipeId = some r2)
    (hi2 : ing2 ∈ r2.ingredients)
    (hname : normalizeName ing1.name = normalizeName ing2.name)
    (hblank : ¬normalizeName ing1.name = "")
    (hexcl : normalizeName ing1.name ∉ pantrySetOf E)
    (hunit : trimStr ing1.unit ≠ trimStr ing2.unit) :
    ∃ e1 ∈ groupShoppingList R P E, ∃ e2 ∈ groupShoppingList R P E,
      entryKey e1 = ingKey ing1 ∧ entryKey e2 = ingKey ing2 ∧ e1 ≠ e2 := by
  obtain ⟨e1, he1, hk1⟩ := groupShoppingList_key_complete R P E ing1
    (mem_pickedIngredients R P pm1 r1 ing1 hpm1 hr1 hi1) hblank hexcl
  obtain ⟨e2, he2, hk2⟩ := groupShoppingList_key_complete R P E ing2
    (mem_pickedIngredients R P pm2 r2 ing2 hpm2 hr2 hi2)
    (by rw [← hname]; exact hblank) (by rw [← hname]; exact hexcl)
  refine ⟨e1, he1, e2, he2, hk1, hk2, ?_⟩
  intro hc
  apply hunit
  have hkk : ingKey ing1 = ingKey ing2 := by rw [← hk1, ← hk2, hc]
  unfold ingKey at hkk
  rw [hname] at hkk
  exact string_append_cancel hkk

/-- Witness for C6 at the `Sugar/g` + `sugar/G` recipe. -/
theorem c6_units_never_merge_witness :
    ∃ e1 ∈ groupShoppingList sugarR collP [],
      ∃ e2 ∈ groupShoppingList sugarR collP [],
        entryKey e1 = ingKey ⟨"Sugar", 1, "g"⟩ ∧
        entryKey e2 = ingKey ⟨"sugar", 1, "G"⟩ ∧ e1 ≠ e2 :=
  c6_units_never_merge sugarR collP [] ⟨"r1", "Bake"⟩ ⟨"r1", "Bake"⟩
    ⟨"r1", "Bake", [⟨"Sugar", 1, "g"⟩, ⟨"sugar", 1, "G"⟩], none⟩
    ⟨"r1", "Bake", [⟨"Sugar", 1, "g"⟩, ⟨"sugar", 1, "G"⟩], none⟩
    ⟨"Sugar", 1, "g"⟩ ⟨"sugar", 1, "G"⟩
    (by decide) (by decide) (by decide) (by decide) (by decide) (by decide)
    (by decide) (by decide) (by decide) (by decide)

/-! ## Extras accumulation (C5) -/

theorem foldl_extraStep_single (l : List String) (k nm : String) (q : ℚ)
    (hl : ∀ raw ∈ l, trimStr raw ≠ "" ∧ normalizeName (trimStr raw) ++ "|||" = k) :
    l.foldl mergeExtraStep [(k, ⟨nm, "", q⟩)] =
      [(k, ⟨nm, "", q + (l.length : ℚ)⟩)] := by
  induction l generalizing q with
  | nil => simp
  | cons raw l ih =>
    obtain ⟨hne, hkey⟩ := hl raw (List.mem_cons_self raw l)
    rw [List.foldl_cons]
    have hstep : mergeExtraStep [(k, ⟨nm, "", q⟩)] raw =
        [(k, ⟨nm, "", q + 1⟩)] := by
      unfold mergeExtraStep
      rw [if_neg hne]
      simp only [hkey]
      rw [show mapGet [(k, (⟨nm, "", q⟩ : Entry))] k = some ⟨nm, "", q⟩ by
        simp [mapGet_cons]]
      simp only [mapBump, List.map_cons, List.map_nil]
      simp [jsAdd_eq_add]
    rw [hstep, ih (q + 1) (fun r hr => hl r (List.mem_cons_of_mem _ hr))]
    have : q + 1 + (l.length : ℚ) = q + ((l.length : ℚ) + 1) := by ring
    rw [this]
    norm_num

/-- **C5**: merging the three case variants of `Coffee` into an empty base
yields one entry of quantity 3; in general, extras that all normalize to
one non-blank name accumulate on a single unit-less row whose count is the
number of occurrences. -/
theorem c5_extras_accumulate :
    mergeExtrasIntoShoppingList [] ["Coffee", "coffee", " COFFEE "] =
      [⟨"Coffee", "", 3⟩] ∧
    ∀ (e0 : String) (rest : List String),
      (∀ raw ∈ e0 :: rest,
        trimStr raw ≠ "" ∧ normalizeName raw = normalizeName e0) →
      mergeExtrasIntoShoppingList [] (e0 :: rest) =
        [⟨trimStr e0, "", 1 + (rest.length : ℚ)⟩] := by
  constructor
  · decide
  · intro e0 rest h
    obtain ⟨h0, -⟩ := h e0 (List.mem_cons_self e0 rest)
    unfold mergeExtrasIntoShoppingList
    rw [show ([] : List Entry).foldl mergeBaseStep [] = [] from rfl,
      List.foldl_cons]
    have hstep : mergeExtraStep [] e0 =
        [(normalizeName (trimStr e0) ++ "|||", ⟨trimStr e0, "", 1⟩)] := by
      unfold mergeExtraStep
      rw [if_neg h0]
      simp [mapGet]
    rw [hstep, foldl_extraStep_single rest _ _ 1
      (fun raw hr => ⟨(h raw (List.mem_cons_of_mem _ hr)).1, by
        rw [normalizeName_trimStr, (h raw (List.mem_cons_of_mem _ hr)).2,
          ← normalizeName_trimStr e0]⟩)]
    rfl

/-- Witness for the general part of C5. -/
theorem c5_extras_accumulate_witness :
    mergeExtrasIntoShoppingList [] ["Coffee", "coffee"] =
      [⟨trimStr "Coffee", "", 1 + (((["coffee"] : List String)).length : ℚ)⟩] :=
  (c5_extras_accumulate).2 "Coffee" ["coffee"] (by decide)

/-! ## Frame property of the extras merge (C8) -/

theorem foldl_mergeBaseStep_mapGet_untouched (base : List Entry) (m : EMap)
    (k : String) (h : ∀ it ∈ base, entryKey it ≠ k) :
    mapGet (base.foldl mergeBaseStep m) k = mapGet m k := by
  induction base generalizing m with
  | nil => rfl
  | cons it base ih =>
    rw [List.foldl_cons, ih _ (fun it' h' => h it' (List.mem_cons_of_mem _ h'))]
    show mapGet (mapSet m (entryKey it) it) k = mapGet m k
    rw [mapGet_set, if_neg (fun hc => h it (List.mem_cons_self _ _) hc.symm)]

theorem foldl_mergeExtraStep_mapGet_untouched (extras : List String)
    (m : EMap) (k : String)
    (h : ∀ raw ∈ extras, trimStr raw ≠ "" →
      normalizeName (trimStr raw) ++ "|||" ≠ k) :
    mapGet (extras.foldl mergeExtraStep m) k = mapGet m k := by
  induction extras generalizing m with
  | nil => rfl
  | cons raw extras ih =>
    rw [List.foldl_cons, ih _ (fun r hr => h r (List.mem_cons_of_mem _ hr))]
    unfold mergeExtraStep
    by_cases h1 : trimStr raw = ""
    · rw [if_pos h1]
    · rw [if_neg h1]
      simp only
      have hkne : normalizeName (trimStr raw) ++ "|||" ≠ k :=
        h raw (List.mem_cons_self _ _) h1
      cases hget : mapGet m (normalizeName (trimStr raw) ++ "|||") with
      | some e0 =>
        rw [mapGet_bump, if_neg (fun hc => hkne hc.symm)]
      | none =>
        cases hmk : mapGet m k with
        | some x => exact mapGet_append_of_isSome _ _ _ _ hmk
        | none =>
          rw [mapGet_append_one_of_none _ _ _ _ hmk,
            if_neg (fun hc => hkne hc.symm)]

theorem mem_of_mapGet_eq_some (m : EMap) (k : String) (e : Entry)
    (h : mapGet m k = some e) : (k, e) ∈ m := by
  simp only [mapGet, Option.map_eq_some'] at h
  obtain ⟨⟨qk, qe⟩, hq, hqe⟩ := h
  have hk := List.find?_some hq
  simp only [decide_eq_true_eq] at hk
  have hmem := List.mem_of_find?_eq_some hq
  rw [← hk, ← hqe]
  exact hmem

/-- **C8** (amended): a base entry whose key string occurs exactly once
among the base keys and differs from every extra item's key appears
unchanged (same name, unit and qty) in the merged output.  Without those
conditions the entry can be overwritten by a later base entry with the
same key, or — when its unit makes its key collide with an extra's key —
incremented even though its unit is non-empty. -/
theorem c8_base_frame (base : List Entry) (extras : List String) (e : Entry)
    (hcount : (base.map entryKey).count (entryKey e) = 1)
    (he : e ∈ base)
    (hx : ∀ raw ∈ extras, trimStr raw ≠ "" →
      normalizeName (trimStr raw) ++ "|||" ≠ entryKey e) :
    e ∈ mergeExtrasIntoShoppingList base extras := by
  obtain ⟨b1, b2, rfl⟩ := List.append_of_mem he
  have hzero : (b1.map entryKey).count (entryKey e) = 0 ∧
      (b2.map entryKey).count (entryKey e) = 0 := by
    simp only [List.map_append, List.map_cons, List.count_append,
      List.count_cons, beq_self_eq_true, if_true] at hcount
    constructor <;> omega
  have hk1 : ∀ it ∈ b1, entryKey it ≠ entryKey e := by
    intro it hit hc
    exact List.count_eq_zero.1 hzero.1 (hc ▸ List.mem_map_of_mem entryKey hit)
  have hk2 : ∀ it ∈ b2, entryKey it ≠ entryKey e := by
    intro it hit hc
    exact List.count_eq_zero.1 hzero.2 (hc ▸ List.mem_map_of_mem entryKey hit)
  have hget : mapGet ((b1 ++ e :: b2).foldl mergeBaseStep []) (entryKey e) =
      some e := by
    rw [List.foldl_append, List.foldl_cons,
      foldl_mergeBaseStep_mapGet_untouched b2 _ _ hk2]
    show mapGet (mapSet (b1.foldl mergeBaseStep []) (entryKey e) e)
      (entryKey e) = some e
    rw [mapGet_set, if_pos rfl]
  have hget2 : mapGet
      (extras.foldl mergeExtraStep ((b1 ++ e :: b2).foldl mergeBaseStep []))
      (entryKey e) = some e := by
    rw [foldl_mergeExtraStep_mapGet_untouched extras _ _ hx, hget]
  exact ((sortEntries_perm _).mem_iff).2
    (List.mem_map_of_mem _ (mem_of_mapGet_eq_some _ _ _ hget2))

/-- **C8** counterexample: two base entries share the key `"a|||g"`, the
second overwrites the first, and the first (unit `"g"`, non-empty) does
not appear in the output. -/
theorem c8_counterexample :
    (⟨"a", "g", (1 : ℚ)⟩ : Entry) ∈ ([⟨"a", "g", 1⟩, ⟨"a", "g", 2⟩] : List Entry) ∧
    (⟨"a", "g", (1 : ℚ)⟩ : Entry) ∉
      mergeExtrasIntoShoppingList [⟨"a", "g", 1⟩, ⟨"a", "g", 2⟩] [] :=
  ⟨by decide, by decide⟩

/-- Witness for C8: a base holding a duplicated `x|||u` key still
preserves the `apple/g` entry, whose key occurs once. -/
theorem c8_base_frame_witness :
    (⟨"apple", "g", (2 : ℚ)⟩ : Entry) ∈
      mergeExtrasIntoShoppingList
        [⟨"apple", "g", 2⟩, ⟨"x", "u", 1⟩, ⟨"x", "u", 3⟩] ["coffee"] :=
  c8_base_frame _ _ _ (by decide) (by decide) (by decide)

/-! ## The Soup scenario (C2) -/

/-- **C2** (amended): with an empty exclusion text and `Soup` picked, the
derived shopping list is exactly `[{onion, pcs, 2}]`; after entering the
line `onion` into the shared pantry/extras text, the recipe's onion is
excluded from the aggregation but the line itself is merged back as an
extra, so the derived list is `[{onion, "", 1}]` — not empty. -/
theorem c2_soup_scenario :
    derivedShoppingList stSoup = [⟨"onion", "pcs", 2⟩] ∧
    derivedShoppingList stSoupExcl = [⟨"onion", "", 1⟩] :=
  ⟨by decide, by decide⟩

/-- **C2** counterexample: after adding the exclusion line `onion` the
derived shopping list is not empty, contrary to the claim. -/
theorem c2_counterexample : derivedShoppingList stSoupExcl ≠ [] := by decide

/-! ## Shuffle is a permutation, and `randomPick` (C3) -/

theorem set_cons_perm (t : List α) (j : Nat) (y a : α)
    (hj : t.get? j = some y) : (y :: t.set j a).Perm (a :: t) := by
  induction t generalizing j with
  | nil => simp at hj
  | cons b s ih =>
    cases j with
    | zero =>
      simp only [List.get?] at hj
      injection hj with hj
      rw [← hj]
      show (b :: a :: s).Perm (a :: b :: s)
      exact List.Perm.swap a b s
    | succ j =>
      simp only [List.get?] at hj
      show (y :: b :: s.set j a).Perm (a :: b :: s)
      exact ((List.Perm.swap b y _).trans ((ih j hj).cons b)).trans
        (List.Perm.swap a b s)

theorem set_set_perm (l : List α) (i j : Nat) (x y : α)
    (hx : l.get? i = some x) (hy : l.get? j = some y) :
    ((l.set i y).set j x).Perm l := by
  induction l generalizing i j with
  | nil => simp at hx
  | cons a t ih =>
    cases i with
    | zero =>
      simp only [List.get?] at hx
      injection hx with hx
      rw [← hx]
      cases j with
      | zero =>
        show (a :: t).Perm (a :: t)
        exact List.Perm.refl _
      | succ j =>
        simp only [List.get?] at hy
        show (y :: t.set j a).Perm (a :: t)
        exact set_cons_perm t j y a hy
    | succ i =>
      simp only [List.get?] at hx
      cases j with
      | zero =>
        simp only [List.get?] at hy
        injection hy with hy
        rw [← hy]
        show (x :: t.set i a).Perm (a :: t)
        exact set_cons_perm t i x a hx
      | succ j =>
        simp only [List.get?] at hy
        show (a :: (t.set i y).set j x).Perm (a :: t)
        exact (ih i j hx hy).cons a

theorem swapList_perm (l : List α) (i j : Nat) : (swapList l i j).Perm l := by
  unfold swapList
  cases hx : l.get? i with
  | none => exact List.Perm.refl l
  | some x =>
    cases hy : l.get? j with
    | none => exact List.Perm.refl l
    | some y => exact set_set_perm l i j x y hx hy

theorem shuffleLoop_perm (c : Nat → Nat) (a : List α) (n : Nat) :
    (shuffleLoop c a n).Perm a := by
  induction n generalizing a with
  | zero => exact List.Perm.refl a
  | succ i ih => exact (ih _).trans (swapList_perm a (i + 1) _)

theorem shuffle_perm (c : Nat → Nat) (l : List α) : (shuffle c l).Perm l :=
  shuffleLoop_perm c l (l.length - 1)

/-- **C3** (amended): on a non-empty recipe list, `randomPick` with
`n = 0` sets `picked` to exactly one meal (the count is clamped below by
1, so picking 0 does not clear `picked`; the separate clear action sets
`picked = []`), and `randomPick` with `n ≥ recipes.length` picks every
available recipe exactly once. -/
theorem c3_random_pick (c : Nat → Nat) (st : AppState)
    (h : st.recipes ≠ []) :
    (randomPick c 0 st).picked.length = 1 ∧
    ∀ n, st.recipes.length ≤ n →
      (randomPick c n st).picked.Perm
        (st.recipes.map (fun r => PickedMeal.mk r.id r.name)) := by
  have hlen : 0 < st.recipes.length := List.length_pos.2 h
  have hne : ¬(st.recipes.length = 0) := by omega
  have hshuf : (shuffle c st.recipes).length = st.recipes.length :=
    (shuffle_perm c st.recipes).length_eq
  constructor
  · unfold randomPick
    rw [if_neg hne]
    simp only [List.length_map, List.length_take, hshuf]
    omega
  · intro n hn
    unfold randomPick
    rw [if_neg hne]
    simp only
    have hcount : max 1 (min n st.recipes.length) = st.recipes.length := by
      omega
    rw [hcount, ← hshuf, List.take_length]
    exact (shuffle_perm c st.recipes).map _

/-- **C3** counterexample: on a one-recipe document with `picked = []`,
`randomPick 0` sets `picked` to that single recipe, not to `[]`. -/
theorem c3_counterexample :
    (randomPick czero 0 stOne).picked = [⟨"r1", "Soup"⟩] ∧
    ([⟨"r1", "Soup"⟩] : List PickedMeal) ≠ [] :=
  ⟨by decide, by decide⟩

/-- Witness for C3. -/
theorem c3_random_pick_witness :
    (randomPick czero 0 stOne).picked.length = 1 ∧
    (randomPick czero 1 stOne).picked.Perm
      (stOne.recipes.map (fun r => PickedMeal.mk r.id r.name)) := by
  have h := c3_random_pick czero stOne (by decide)
  exact ⟨h.1, h.2 1 (by decide)⟩

/-! ## Hide / restore (C4, C10) -/

/-- **C4** (amended): when nothing was hidden before, hiding an entry and
then restoring all yields a visible list identical to the one before the
hide.  When the prior hidden-key set is non-empty the property fails:
restore-all also reveals the previously hidden entries (see the
counterexample). -/
theorem restore_hide (st : AppState) (name unit : String) :
    restoreShoppingList (hideShoppingItem name unit st) =
      restoreShoppingList st := by
  simp only [hideShoppingItem]
  by_cases hmem : shoppingKey name unit ∈ st.hiddenShoppingKeys
  · rw [if_pos hmem]
  · rw [if_neg hmem]
    rfl

theorem c4_hide_restore (st : AppState) (name unit : String)
    (h : st.hiddenShoppingKeys = []) :
    visibleShoppingList (restoreShoppingList (hideShoppingItem name unit st)) =
      visibleShoppingList st := by
  rw [restore_hide]
  obtain ⟨r, p, pk, hk⟩ := st
  simp only at h
  subst h
  rfl

/-- **C4** counterexample: with `onion|||pcs` already hidden, hiding
`rice/g` and restoring reveals both rows, which differs from the visible
list before the hide (only `rice`). -/
theorem c4_counterexample :
    visibleShoppingList (restoreShoppingList (hideShoppingItem "rice" "g" stHide)) ≠
      visibleShoppingList stHide := by decide

/-- Witness for C4. -/
theorem c4_hide_restore_witness :
    visibleShoppingList
        (restoreShoppingList (hideShoppingItem "onion" "pcs" stSoup)) =
      visibleShoppingList stSoup :=
  c4_hide_restore stSoup "onion" "pcs" (by decide)

/-- **C10**: `hideShoppingItem` is idempotent — hiding an already hidden
key leaves the document unchanged — and it preserves duplicate-freeness
of `hiddenShoppingKeys`. -/
theorem c10_hide_idempotent (st : AppState) (name unit : String) :
    hideShoppingItem name unit (hideShoppingItem name unit st) =
      hideShoppingItem name unit st ∧
    (st.hiddenShoppingKeys.Nodup →
      (hideShoppingItem name unit st).hiddenShoppingKeys.Nodup) := by
  constructor
  · unfold hideShoppingItem
    by_cases hmem : shoppingKey name unit ∈ st.hiddenShoppingKeys
    · rw [if_pos hmem, if_pos hmem]
    · rw [if_neg hmem]
      rw [if_pos (by simp)]
  · intro hnd
    unfold hideShoppingItem
    by_cases hmem : shoppingKey name unit ∈ st.hiddenShoppingKeys
    · rw [if_pos hmem]
      exact hnd
    · rw [if_neg hmem]
      simp [List.nodup_append, hnd, hmem]

/-- Witness for C10. -/
theorem c10_hide_idempotent_witness :
    hideShoppingItem "onion" "pcs" (hideShoppingItem "onion" "pcs" stSoup) =
      hideShoppingItem "onion" "pcs" stSoup ∧
    (hideShoppingItem "onion" "pcs" stSoup).hiddenShoppingKeys.Nodup := by
  have h := c10_hide_idempotent stSoup "onion" "pcs"
  exact ⟨h.1, h.2 (by decide)⟩

/-! ## Sync controller (C7) -/

theorem syncRun_no_load (es : List SyncEvent) (cs : ClientState)
    (hcs : cs.hasLoaded = false ∧ cs.doc = none ∧ cs.pendingSave = none)
    (h : ∀ e ∈ es, isLoadSuccess e = false) :
    (syncRun cs es).2 = [] ∧
    ((syncRun cs es).1.hasLoaded = false ∧ (syncRun cs es).1.doc = none ∧
      (syncRun cs es).1.pendingSave = none) := by
  induction es generalizing cs with
  | nil => exact ⟨rfl, hcs⟩
  | cons e es ih =>
    obtain ⟨h1, h2, h3⟩ := hcs
    have htail : ∀ e ∈ es, isLoadSuccess e = false :=
      fun e he => h e (List.mem_cons_of_mem _ he)
    cases e with
    | loadSuccess s =>
      exact absurd (h _ (List.mem_cons_self _ _)) (by simp [isLoadSuccess])
    | loadFailure =>
      have hih := ih cs ⟨h1, h2, h3⟩ htail
      simpa [syncRun, syncStep] using hih
    | mutate f =>
      have hih := ih cs ⟨h1, h2, h3⟩ htail
      simpa [syncRun, syncStep, h2] using hih
    | timerFire =>
      have hih := ih cs ⟨h1, h2, h3⟩ htail
      simpa [syncRun, syncStep, h3] using hih
    | logout =>
      have hih := ih ⟨false, none, none⟩ ⟨rfl, rfl, rfl⟩ htail
      simpa [syncRun, syncStep] using hih

/-- **C7**: starting from the initial client state, a run containing no
successful load attempts no persist and leaves no save pending — in
particular, document mutations before the first successful load schedule
no write. -/
theorem c7_no_persist_before_load (es : List SyncEvent)
    (h : ∀ e ∈ es, isLoadSuccess e = false) :
    (syncRun initClient es).2 = [] ∧
    (syncRun initClient es).1.pendingSave = none := by
  have hrun := syncRun_no_load es initClient ⟨rfl, rfl, rfl⟩ h
  exact ⟨hrun.1, hrun.2.2.2⟩

/-- Witness for C7: a failed load, a mutation, a timer expiry and a
logout persist nothing. -/
theorem c7_no_persist_before_load_witness :
    (syncRun initClient [SyncEvent.loadFailure, SyncEvent.mutate id,
      SyncEvent.timerFire, SyncEvent.logout]).2 = [] ∧
    (syncRun initClient [SyncEvent.loadFailure, SyncEvent.mutate id,
      SyncEvent.timerFire, SyncEvent.logout]).1.pendingSave = none := by
  refine c7_no_persist_before_load _ ?_
  intro e he
  simp only [List.mem_cons, List.not_mem_nil, or_false] at he
  rcases he with rfl | rfl | rfl | rfl <;> rfl

end MealPlanner
